import Mathlib

/-!
Verification of the RSA core of the repository (educational RSA over the
alphabet A..Z).  The embedding follows the two Python sources:

* namespace `RSAcore`  : functions of
  `src/laboratorios_criptografia/03_cifrados_asimetricos/RSA.py`
* namespace `TestRSA`  : functions of
  `src/03_cifrados_asimetricos/03_rsa/test_rsa.py`

Modelling conventions:
* A Python string of decimal digits is embedded as a `List Nat` whose
  entries are the digit values (each `< 10` for genuine digit strings);
  `int(s)` on such a string is `digitsToNat`, string concatenation is
  `List.append`, `s[i:i+2]` is the first two entries of the suffix.
* Text is embedded as `List Char`; Python compares characters by code
  point, so character range tests are embedded as `Char.toNat` bounds
  (65 = ord A, 90 = ord Z, 97 = ord a, 122 = ord z).  The embedding models
  the ASCII behaviour of `str.isalpha`/`str.upper`, which is the alphabet
  the program is specified over.
* Python integers are `Int` (or `Nat` where the source value is provably
  non-negative); Python `%` and `//` on integers are floor operations,
  embedded as `Int.fmod` / `Int.fdiv`.
* Loops whose progress is data dependent (the greedy packer, the
  square-and-multiply loop, the Euclidean recursion) are embedded with an
  explicit fuel parameter; `none` (for the packer) means the fuel ran out,
  which happens for every fuel exactly when the Python loop diverges.
* A Python function that can raise is embedded returning `Option`
  (`none` = exception raised).
* `random.randrange` inside Miller-Rabin is modelled by an oracle
  `bases : Nat → Nat` supplying the successive random draws.
-/

/-- Value of a (big-endian) digit list, i.e. Python `int` applied to a
non-empty decimal digit string. -/
def digitsToNat (l : List Nat) : Nat := l.foldl (fun a d => 10 * a + d) 0

/-- Little-endian digits of `n` with explicit fuel (enough fuel: `n` itself). -/
def toDigitsLE : Nat → Nat → List Nat
  | 0, _ => []
  | fuel + 1, n => if n = 0 then [] else (n % 10) :: toDigitsLE fuel (n / 10)

/-- Decimal representation of `n` as digit values, i.e. Python `str(n)`:
minimal digits, and the single digit 0 for `n = 0`. -/
def digitsOf (n : Nat) : List Nat :=
  if n = 0 then [0] else (toDigitsLE n n).reverse

/-- Left-pad a digit list with zeros to width `w`, i.e. Python `zfill`:
no-op when the list is already at least `w` long. -/
def padZeros (w : Nat) (l : List Nat) : List Nat :=
  List.replicate (w - l.length) 0 ++ l

/-- The unique 2-digit groups of an (aligned) digit string are all below `m`.
A trailing single digit or the empty string impose no condition. -/
def pairsBelow (m : Nat) : List Nat → Bool
  | d1 :: d2 :: rest => decide (10 * d1 + d2 < m) && pairsBelow m rest
  | _ => true

/-- Fixed-width big-endian base-10 representation (helper for proofs only). -/
def repFixed : Nat → Nat → List Nat
  | 0, _ => []
  | w + 1, v => repFixed w (v / 10) ++ [v % 10]

namespace RSAcore

/-- Inner `while` of `split_into_blocks` (RSA.py lines 97-110): greedily
append whole 2-digit groups to the accumulator while the value stays below
the modulus.  Returns the final accumulator, its letter count and the
unconsumed suffix. -/
def innerScan (m : Nat) : List Nat → List Nat → Nat → List Nat × Nat × List Nat
  | d1 :: d2 :: rest, current, count =>
      if digitsToNat (current ++ [d1, d2]) < m then
        innerScan m rest (current ++ [d1, d2]) (count + 1)
      else (current, count, d1 :: d2 :: rest)
  | s, current, count => (current, count, s)

end RSAcore

namespace RSAcore

/-- Outer `while` of `split_into_blocks` with fuel counting outer
iterations.  `none` means the fuel ran out; since an iteration that emits
no block leaves the position unchanged, the Python loop diverges exactly
when every fuel is exhausted. -/
def splitFuel (m : Nat) : Nat → List Nat → Option (List (Nat × Nat))
  | _, [] => some []
  | 0, _ :: _ => none
  | fuel + 1, d :: s =>
      match innerScan m (d :: s) [] 0 with
      | (current, count, rest) =>
        if current.isEmpty then splitFuel m fuel rest
        else (splitFuel m fuel rest).map fun bs => (digitsToNat current, count) :: bs

end RSAcore

namespace RSAcore

/-- `split_into_blocks` (RSA.py lines 78-115, identical to test_rsa.py
lines 86-113): greedy partition of a digit string into `(value, letter
count)` blocks with `value < modulus`.  Fuel `length + 1` outer iterations
is enough for every terminating run, since a productive iteration consumes
at least two digits. -/
def split_into_blocks (numeric_str : List Nat) (modulus : Nat) :
    Option (List (Nat × Nat)) :=
  splitFuel modulus (numeric_str.length + 1) numeric_str

end RSAcore

namespace RSAcore

/-- `reconstruct_numeric_string` (RSA.py lines 291-337): zero-pad each
block value to `2 × letter_count` digits and concatenate. -/
def reconstruct_numeric_string (blocks : List (Nat × Nat)) : List Nat :=
  blocks.foldl (fun acc b => acc ++ padZeros (2 * b.2) (digitsOf b.1)) []

end RSAcore

namespace TestRSA

/-- Loop of `modular_exponentiation` (test_rsa.py lines 41-52), fuel-indexed:
one fuel unit per iteration of `while exp > 0` (the exponent halves each
iteration, so any fuel at least the exponent is enough). -/
def modPowLoop (m : Nat) : Nat → Nat → Nat → Nat → Nat
  | 0, result, _, _ => result
  | fuel + 1, result, base, e =>
      if e = 0 then result
      else modPowLoop m fuel (if e % 2 = 1 then result * base % m else result)
        (base * base % m) (e / 2)

end TestRSA

namespace TestRSA

/-- `modular_exponentiation` (test_rsa.py lines 41-52): square-and-multiply,
`result = 1`, `base = base % mod` up front. -/
def modular_exponentiation (base exp mod : Nat) : Nat :=
  modPowLoop mod exp 1 (base % mod) exp

end TestRSA

namespace RSAcore

/-- Loop of `modular_exponentiation_traced` (RSA.py lines 154-186,
`verbose=False`): same square-and-multiply, but the final squaring is
skipped when the shifted exponent hits 0. -/
def modPowLoopT (m : Nat) : Nat → Nat → Nat → Nat → Nat
  | 0, result, _, _ => result
  | fuel + 1, result, base, e =>
      if e = 0 then result
      else
        let result2 := if e % 2 = 1 then result * base % m else result
        if e / 2 = 0 then result2
        else modPowLoopT m fuel result2 (base * base % m) (e / 2)

end RSAcore

namespace RSAcore

/-- `modular_exponentiation_traced` (RSA.py lines 122-191) with
`verbose=False` (the tracing branch only prints). -/
def modular_exponentiation_traced (base exp mod : Nat) : Nat :=
  modPowLoopT mod exp 1 (base % mod) exp

end RSAcore

namespace TestRSA

/-- The `modular_exponentiation` loop over Python integers (test_rsa.py
lines 41-52): for a negative exponent the `while exp > 0` guard fails at
once, so the initial `result = 1` is returned.  Python `%`/`>>= 1` are
floor operations, hence `Int.fmod`/`Int.fdiv`. -/
def modPowLoopI (m : Int) : Nat → Int → Int → Int → Int
  | 0, result, _, _ => result
  | fuel + 1, result, base, e =>
      if 0 < e then
        modPowLoopI m fuel (if Int.fmod e 2 = 1 then Int.fmod (result * base) m else result)
          (Int.fmod (base * base) m) (Int.fdiv e 2)
      else result

end TestRSA

namespace TestRSA

/-- `modular_exponentiation` on arbitrary Python integers. -/
def modular_exponentiation_int (base exp mod : Int) : Int :=
  modPowLoopI mod (exp.toNat + 1) 1 (Int.fmod base mod) exp

end TestRSA

namespace RSAcore

/-- The `modular_exponentiation_traced` loop over Python integers
(RSA.py lines 154-186, `verbose=False`). -/
def modPowLoopTI (m : Int) : Nat → Int → Int → Int → Int
  | 0, result, _, _ => result
  | fuel + 1, result, base, e =>
      if 0 < e then
        let result2 := if Int.fmod e 2 = 1 then Int.fmod (result * base) m else result
        if 0 < Int.fdiv e 2 then modPowLoopTI m fuel result2 (Int.fmod (base * base) m) (Int.fdiv e 2)
        else result2
      else result

end RSAcore

namespace RSAcore

/-- `modular_exponentiation_traced` on arbitrary Python integers. -/
def modular_exponentiation_traced_int (base exp mod : Int) : Int :=
  modPowLoopTI mod (exp.toNat + 1) 1 (Int.fmod base mod) exp

end RSAcore

namespace RSAcore

/-- Recursion of `extended_gcd` (RSA.py lines 222-240), fuel-indexed; the
base case `b = 0` returns `(a, 1, 0)` exactly as the source does.  One fuel
unit per recursive call; `natAbs b + 1` fuel always suffices because
`natAbs (a mod b) < natAbs b`. -/
def egcdAux : Nat → Int → Int → Int × Int × Int
  | 0, a, _ => (a, 1, 0)
  | fuel + 1, a, b =>
      if b = 0 then (a, 1, 0)
      else
        let r := egcdAux fuel b (Int.fmod a b)
        (r.1, r.2.2, r.2.1 - Int.fdiv a b * r.2.2)

end RSAcore

namespace RSAcore

/-- `extended_gcd` (RSA.py lines 222-240): Euclid with Bezout
coefficients, base case `(a, 1, 0)`. -/
def extended_gcd (a b : Int) : Int × Int × Int :=
  egcdAux (b.natAbs + 1) a b

end RSAcore

namespace RSAcore

/-- `modinv` (RSA.py lines 243-264): modular inverse of `e` mod `phi`;
`none` models the raised `ValueError` when the gcd is not 1. -/
def modinv (e phi : Int) : Option Int :=
  match extended_gcd e phi with
  | (gcd_val, d, _) => if gcd_val ≠ 1 then none else some (Int.fmod d phi)

end RSAcore

namespace TestRSA

/-- Recursion of `extended_gcd` (test_rsa.py lines 19-28), fuel-indexed;
the base case `b = 0` returns `(abs a, sign a, 0)` as the source does. -/
def egcdAbsAux : Nat → Int → Int → Int × Int × Int
  | 0, a, _ => ((a.natAbs : Int), if 0 ≤ a then 1 else -1, 0)
  | fuel + 1, a, b =>
      if b = 0 then ((a.natAbs : Int), if 0 ≤ a then 1 else -1, 0)
      else
        let r := egcdAbsAux fuel b (Int.fmod a b)
        (r.1, r.2.2, r.2.1 - Int.fdiv a b * r.2.2)

end TestRSA

namespace TestRSA

/-- `extended_gcd` (test_rsa.py lines 19-28). -/
def extended_gcd (a b : Int) : Int × Int × Int :=
  egcdAbsAux (b.natAbs + 1) a b

end TestRSA

namespace TestRSA

/-- `modular_inverse` (test_rsa.py lines 31-38); `none` models the raised
`ValueError` when the gcd is not 1. -/
def modular_inverse (a m : Int) : Option Int :=
  match extended_gcd a m with
  | (gcd_val, x, _) => if gcd_val ≠ 1 then none else some (Int.fmod x m)

end TestRSA

namespace RSAcore

/-- Per-character contribution of `map_text_to_numbers` (RSA.py lines
17-36): skip non-alphabetic characters (`continue`), uppercase, keep A-Z,
append the two-digit index.  Python compares characters by code point:
65/90/97/122 are the code points of A, Z, a, z. -/
def letterCode (c : Char) : List Nat :=
  if (65 ≤ c.toNat ∧ c.toNat ≤ 90) ∨ (97 ≤ c.toNat ∧ c.toNat ≤ 122) then
    if 65 ≤ c.toUpper.toNat ∧ c.toUpper.toNat ≤ 90 then
      [(c.toUpper.toNat - 65) / 10, (c.toUpper.toNat - 65) % 10]
    else []
  else []

end RSAcore

namespace RSAcore

/-- `map_text_to_numbers` (RSA.py lines 17-36). -/
def map_text_to_numbers (text : List Char) : List Nat :=
  (text.map letterCode).flatten

end RSAcore

namespace RSAcore

/-- `map_numbers_to_text` (RSA.py lines 39-56): read aligned 2-digit
groups, drop a trailing single digit and any group above 25. -/
def map_numbers_to_text : List Nat → List Char
  | d1 :: d2 :: rest =>
      (if 10 * d1 + d2 ≤ 25 then [Char.ofNat (65 + (10 * d1 + d2))] else []) ++
        map_numbers_to_text rest
  | _ => []

end RSAcore

namespace TestRSA

/-- Per-character contribution of `text_to_numbers` (test_rsa.py lines
59-69): `text.upper()` then keep A-Z. -/
def letterCodeU (c : Char) : List Nat :=
  if 65 ≤ c.toUpper.toNat ∧ c.toUpper.toNat ≤ 90 then
    [(c.toUpper.toNat - 65) / 10, (c.toUpper.toNat - 65) % 10]
  else []

end TestRSA

namespace TestRSA

/-- `text_to_numbers` (test_rsa.py lines 59-69). -/
def text_to_numbers (text : List Char) : List Nat :=
  (text.map letterCodeU).flatten

end TestRSA

namespace TestRSA

/-- `numbers_to_text` (test_rsa.py lines 72-83), identical in source to
`map_numbers_to_text` of RSA.py. -/
def numbers_to_text (l : List Nat) : List Char :=
  RSAcore.map_numbers_to_text l

end TestRSA

namespace TestRSA

/-- `split_into_blocks` (test_rsa.py lines 86-113); the source is
character-for-character the same as RSA.py lines 78-115. -/
def split_into_blocks (numeric_str : List Nat) (modulus : Nat) :
    Option (List (Nat × Nat)) :=
  RSAcore.split_into_blocks numeric_str modulus

end TestRSA

namespace TestRSA

/-- `encrypt_message` (test_rsa.py lines 120-130): encode, pack, then
`C = M^e mod n` per block, keeping each letter count. -/
def encrypt_message (plaintext : List Char) (e n : Nat) :
    Option (List (Nat × Nat)) :=
  (split_into_blocks (text_to_numbers plaintext) n).map
    fun blocks => blocks.map fun b => (modular_exponentiation b.1 e n, b.2)

end TestRSA

namespace TestRSA

/-- `decrypt_message` (test_rsa.py lines 133-143): `M = C^d mod n` per
block, zero-pad to `2 × letter_count` digits, concatenate, decode. -/
def decrypt_message (encrypted_blocks : List (Nat × Nat)) (d n : Nat) :
    List Char :=
  numbers_to_text
    (encrypted_blocks.foldl
      (fun acc b =>
        acc ++ padZeros (2 * b.2) (digitsOf (modular_exponentiation b.1 d n))) [])

end TestRSA

namespace RSAcore

/-- The `while d % 2 == 0` factoring loop of `is_probable_prime` (RSA.py
lines 362-365), fuel-indexed (fuel `d` suffices since `d` halves). -/
def factorTwosAux : Nat → Nat → Nat → Nat × Nat
  | 0, r, d => (r, d)
  | fuel + 1, r, d => if d % 2 = 0 then factorTwosAux fuel (r + 1) (d / 2) else (r, d)

end RSAcore

namespace RSAcore

/-- Inner squaring loop `for _ in range(r - 1)` with its `for/else`
(RSA.py lines 374-379): `true` means some square hit `n - 1` (the
`break`), `false` means the loop ran out (the `else: return False`). -/
def mrProbe : Nat → Nat → Nat → Bool
  | 0, _, _ => false
  | fuel + 1, x, n =>
      let x2 := x ^ 2 % n
      if x2 = n - 1 then true else mrProbe fuel x2 n

end RSAcore

namespace RSAcore

/-- One Miller-Rabin round for the base `a` (RSA.py lines 367-379):
`pow(a, d, n)` then the pass conditions `x = 1`, `x = n - 1`, or a square
reaching `n - 1`. -/
def mrRound (n d r a : Nat) : Bool :=
  let x := a ^ d % n
  if x = 1 ∨ x = n - 1 then true else mrProbe (r - 1) x n

end RSAcore

namespace RSAcore

/-- `is_probable_prime` (RSA.py lines 344-381).  `random.randrange(2, n-1)`
is modelled by the oracle `bases`, whose `i`-th value is the `i`-th random
draw; `k` is the round count. -/
def is_probable_prime (bases : Nat → Nat) (n : Nat) (k : Nat) : Bool :=
  if n < 2 then false
  else if n = 2 ∨ n = 3 then true
  else if n % 2 = 0 then false
  else
    let rd := factorTwosAux (n - 1) 0 (n - 1)
    (List.range k).all fun i => mrRound n rd.2 rd.1 (bases i)

end RSAcore

namespace RSAcore

/-- `int(pair)` applied to a single character inside
`map_numbers_to_text`: succeeds exactly on decimal digits (48 and 57 are
the code points of 0 and 9); `none` models the `ValueError`. -/
def parseDigit (c : Char) : Option Nat :=
  if 48 ≤ c.toNat ∧ c.toNat ≤ 57 then some (c.toNat - 48) else none

end RSAcore

namespace RSAcore

/-- `map_numbers_to_text` (RSA.py lines 39-56) at character level, with
the fallibility of `int(pair)` made explicit: `none` models an exception
escaping from `int`. -/
def map_numbers_to_text_chars : List Char → Option (List Char)
  | c1 :: c2 :: rest => do
      let v1 ← parseDigit c1
      let v2 ← parseDigit c2
      let t ← map_numbers_to_text_chars rest
      pure ((if 10 * v1 + v2 ≤ 25 then [Char.ofNat (65 + (10 * v1 + v2))] else []) ++ t)
  | _ => some []

end RSAcore

theorem digitsToNat_append (l : List Nat) (d : Nat) :
    digitsToNat (l ++ [d]) = 10 * digitsToNat l + d := by
  simp [digitsToNat, List.foldl_append]

theorem digitsToNat_pair (d1 d2 : Nat) :
    digitsToNat [d1, d2] = 10 * d1 + d2 := by
  simp [digitsToNat]

theorem digitsToNat_lt_pow (l : List Nat) (h : ∀ d ∈ l, d < 10) :
    digitsToNat l < 10 ^ l.length := by
  induction l using List.reverseRecOn with
  | nil => simp [digitsToNat]
  | append_singleton l d ih =>
      have hd : d < 10 := h d (by simp)
      have hl : digitsToNat l < 10 ^ l.length :=
        ih fun x hx => h x (by simp [hx])
      rw [digitsToNat_append]
      have : 10 * digitsToNat l + d < 10 * 10 ^ l.length := by omega
      simpa [pow_succ, Nat.mul_comm] using this

theorem toDigitsLE_zero (fuel : Nat) : toDigitsLE fuel 0 = [] := by
  cases fuel <;> simp [toDigitsLE]

theorem toDigitsLE_congr :
    ∀ f1 f2 n, n ≤ f1 → n ≤ f2 → toDigitsLE f1 n = toDigitsLE f2 n := by
  intro f1
  induction f1 with
  | zero =>
      intro f2 n h1 _
      have : n = 0 := Nat.le_zero.mp h1
      subst this
      simp [toDigitsLE_zero, toDigitsLE]
  | succ f1 ih =>
      intro f2 n h1 h2
      rcases Nat.eq_zero_or_pos n with hn | hn
      · subst hn; simp [toDigitsLE_zero]
      · obtain ⟨f2', rfl⟩ : ∃ f2', f2 = f2' + 1 := ⟨f2 - 1, by omega⟩
        have hd : n / 10 < n := Nat.div_lt_self hn (by omega)
        simp only [toDigitsLE, if_neg (Nat.pos_iff_ne_zero.mp hn)]
        rw [ih f2' (n / 10) (by omega) (by omega)]

theorem digitsOf_lt_ten {v : Nat} (h0 : 0 < v) (h10 : v < 10) : digitsOf v = [v] := by
  have hv : v ≠ 0 := Nat.pos_iff_ne_zero.mp h0
  obtain ⟨f, rfl⟩ : ∃ f, v = f + 1 := ⟨v - 1, by omega⟩
  simp only [digitsOf, if_neg hv, toDigitsLE, if_neg hv]
  rw [Nat.div_eq_of_lt h10, toDigitsLE_zero, Nat.mod_eq_of_lt h10]
  simp

theorem digitsOf_ge_ten {v : Nat} (h : 10 ≤ v) :
    digitsOf v = digitsOf (v / 10) ++ [v % 10] := by
  have hv : v ≠ 0 := by omega
  have hq : v / 10 ≠ 0 := Nat.pos_iff_ne_zero.mp (Nat.div_pos h (by omega))
  obtain ⟨f, rfl⟩ : ∃ f, v = f + 1 := ⟨v - 1, by omega⟩
  simp only [digitsOf, if_neg hv, if_neg hq, toDigitsLE, if_neg hv]
  rw [toDigitsLE_congr f ((f + 1) / 10) ((f + 1) / 10)
    (by have := Nat.div_lt_self (by omega : 0 < f + 1) (by omega : 1 < 10); omega)
    (Nat.le_refl _)]
  simp

theorem repFixed_zero (w : Nat) : repFixed w 0 = List.replicate w 0 := by
  induction w with
  | zero => simp [repFixed]
  | succ w ih => simp [repFixed, ih, List.replicate_succ']

theorem padZeros_append_digit (w x : Nat) (l : List Nat) :
    padZeros (w + 1) (l ++ [x]) = padZeros w l ++ [x] := by
  simp [padZeros, List.append_assoc]

theorem padZeros_digitsOf_eq_repFixed :
    ∀ w v, 1 ≤ w → v < 10 ^ w → padZeros w (digitsOf v) = repFixed w v := by
  intro w
  induction w with
  | zero => omega
  | succ w ih =>
      intro v _ hv
      rcases Nat.eq_zero_or_pos v with rfl | hpos
      · show padZeros (w + 1) [0] = _
        rw [repFixed_zero]
        simp [padZeros, List.replicate_succ']
      · rcases Nat.lt_or_ge v 10 with hsmall | hbig
        · rw [digitsOf_lt_ten hpos hsmall]
          show padZeros (w + 1) ([] ++ [v]) = repFixed (w + 1) v
          rw [padZeros_append_digit, repFixed]
          rcases Nat.eq_zero_or_pos w with rfl | hw
          · simp [padZeros, repFixed, Nat.div_eq_of_lt hsmall, Nat.mod_eq_of_lt hsmall]
          · rw [Nat.div_eq_of_lt hsmall, Nat.mod_eq_of_lt hsmall, repFixed_zero]
            simp [padZeros]
        · have hw : 1 ≤ w := by
            by_contra h
            have : w = 0 := by omega
            subst this
            simp at hv; omega
          rw [digitsOf_ge_ten hbig, padZeros_append_digit, repFixed]
          congr 1
          exact ih (v / 10) hw (by
            have : v / 10 < 10 ^ w := by
              rw [Nat.div_lt_iff_lt_mul (by omega)]
              calc v < 10 ^ (w + 1) := hv
                _ = 10 ^ w * 10 := by ring
            exact this)

theorem repFixed_digitsToNat (l : List Nat) (h : ∀ d ∈ l, d < 10) :
    repFixed l.length (digitsToNat l) = l := by
  induction l using List.reverseRecOn with
  | nil => simp [repFixed, digitsToNat]
  | append_singleton l d ih =>
      have hd : d < 10 := h d (by simp)
      rw [digitsToNat_append]
      have hlen : (l ++ [d]).length = l.length + 1 := by simp
      rw [hlen, repFixed]
      have hq : (10 * digitsToNat l + d) / 10 = digitsToNat l := by omega
      have hm : (10 * digitsToNat l + d) % 10 = d := by omega
      rw [hq, hm, ih fun x hx => h x (by simp [hx])]

theorem pad_digits_roundtrip (l : List Nat) (h : ∀ d ∈ l, d < 10)
    (hlen : 1 ≤ l.length) :
    padZeros l.length (digitsOf (digitsToNat l)) = l := by
  rw [padZeros_digitsOf_eq_repFixed l.length (digitsToNat l) hlen
    (digitsToNat_lt_pow l h)]
  exact repFixed_digitsToNat l h

namespace RSAcore

theorem innerScan_append (m : Nat) (s c : List Nat) (k : Nat) :
    (innerScan m s c k).1 ++ (innerScan m s c k).2.2 = c ++ s := by
  induction s, c, k using innerScan.induct m with
  | case1 d1 d2 rest c k htest ih =>
      simp only [innerScan, if_pos htest] at ih ⊢
      rw [ih]; simp
  | case2 d1 d2 rest c k htest =>
      simp only [innerScan, if_neg htest]
  | case3 s c k hs =>
      match s, hs with
      | [], _ => simp [innerScan]
      | [d], _ => simp [innerScan]
      | d1 :: d2 :: rest, hs => exact absurd rfl (hs d1 d2 rest)

end RSAcore

namespace RSAcore

theorem innerScan_len (m : Nat) (s c : List Nat) (k : Nat) :
    (innerScan m s c k).1.length + 2 * k = c.length + 2 * ((innerScan m s c k).2.1) := by
  induction s, c, k using innerScan.induct m with
  | case1 d1 d2 rest c k htest ih =>
      simp only [innerScan, if_pos htest] at ih ⊢
      simp at ih
      omega
  | case2 d1 d2 rest c k htest =>
      simp only [innerScan, if_neg htest]
  | case3 s c k hs =>
      match s, hs with
      | [], _ => simp [innerScan]
      | [d], _ => simp [innerScan]
      | d1 :: d2 :: rest, hs => exact absurd rfl (hs d1 d2 rest)

end RSAcore

namespace RSAcore

theorem innerScan_count_mono (m : Nat) (s c : List Nat) (k : Nat) :
    k ≤ (innerScan m s c k).2.1 := by
  induction s, c, k using innerScan.induct m with
  | case1 d1 d2 rest c k htest ih =>
      simp only [innerScan, if_pos htest] at ih ⊢
      omega
  | case2 d1 d2 rest c k htest =>
      simp [innerScan, if_neg htest]
  | case3 s c k hs =>
      match s, hs with
      | [], _ => simp [innerScan]
      | [d], _ => simp [innerScan]
      | d1 :: d2 :: rest, hs => exact absurd rfl (hs d1 d2 rest)

end RSAcore

namespace RSAcore

theorem innerScan_value (m : Nat) (s c : List Nat) (k : Nat) :
    (innerScan m s c k).1 = c ∨ digitsToNat (innerScan m s c k).1 < m := by
  induction s, c, k using innerScan.induct m with
  | case1 d1 d2 rest c k htest ih =>
      simp only [innerScan, if_pos htest] at ih ⊢
      rcases ih with h | h
      · right; rw [h]; exact htest
      · right; exact h
  | case2 d1 d2 rest c k htest =>
      simp [innerScan, if_neg htest]
  | case3 s c k hs =>
      match s, hs with
      | [], _ => simp [innerScan]
      | [d], _ => simp [innerScan]
      | d1 :: d2 :: rest, hs => exact absurd rfl (hs d1 d2 rest)

end RSAcore

namespace RSAcore

theorem innerScan_progress (m : Nat) (d1 d2 : Nat) (rest : List Nat)
    (h : 10 * d1 + d2 < m) :
    1 ≤ (innerScan m (d1 :: d2 :: rest) [] 0).2.1 := by
  have htest : digitsToNat ([] ++ [d1, d2]) < m := by
    simpa [digitsToNat_pair] using h
  have := innerScan_count_mono m rest [d1, d2] 1
  simp only [innerScan, if_pos htest]
  simpa using this

end RSAcore

namespace RSAcore

theorem reconstruct_aux (l : List (Nat × Nat)) (acc : List Nat) :
    l.foldl (fun a b => a ++ padZeros (2 * b.2) (digitsOf b.1)) acc =
      acc ++ l.foldl (fun a b => a ++ padZeros (2 * b.2) (digitsOf b.1)) [] := by
  induction l generalizing acc with
  | nil => simp
  | cons b l ih =>
      simp only [List.foldl_cons]
      rw [ih (acc ++ _), ih (List.nil ++ _)]
      simp

end RSAcore

namespace RSAcore

theorem reconstruct_cons (b : Nat × Nat) (bs : List (Nat × Nat)) :
    reconstruct_numeric_string (b :: bs) =
      padZeros (2 * b.2) (digitsOf b.1) ++ reconstruct_numeric_string bs := by
  unfold reconstruct_numeric_string
  simp only [List.foldl_cons]
  rw [reconstruct_aux]
  simp

end RSAcore

namespace RSAcore

theorem splitFuel_sound (m : Nat) : ∀ (fuel : Nat) (s : List Nat)
    (blocks : List (Nat × Nat)), (∀ d ∈ s, d < 10) →
    splitFuel m fuel s = some blocks →
    reconstruct_numeric_string blocks = s ∧
    (∀ b ∈ blocks, b.1 < m ∧ 1 ≤ b.2 ∧ (digitsOf b.1).length ≤ 2 * b.2) ∧
    ∃ chunks : List (List Nat),
      chunks.flatten = s ∧
      List.Forall₂ (fun ch (b : Nat × Nat) =>
        ch.length = 2 * b.2 ∧ digitsToNat ch = b.1 ∧ ∀ d ∈ ch, d < 10)
        chunks blocks := by
  intro fuel s
  induction fuel, s using splitFuel.induct m with
  | case1 t =>
      intro blocks _ hsome
      simp only [splitFuel] at hsome
      cases hsome
      refine ⟨by simp [reconstruct_numeric_string], by simp, [], by simp, by simp⟩
  | case2 d s =>
      intro blocks _ hsome
      exact Option.noConfusion hsome
  | case3 fuel d s current count rest hscan hempty ih =>
      intro blocks hdig hsome
      have happ := innerScan_append m (d :: s) [] 0
      rw [hscan] at happ
      simp only [List.nil_append] at happ
      have hcur : current = [] := by
        cases current with
        | nil => rfl
        | cons x xs => simp [List.isEmpty] at hempty
      subst hcur
      simp only [List.nil_append] at happ
      subst happ
      simp only [splitFuel, hscan, hempty, if_pos] at hsome
      exact ih blocks hdig hsome
  | case4 fuel d s current count rest hscan hempty ih =>
      intro blocks hdig hsome
      have happ := innerScan_append m (d :: s) [] 0
      rw [hscan] at happ
      simp only [List.nil_append] at happ
      have hlen := innerScan_len m (d :: s) [] 0
      rw [hscan] at hlen
      simp only [List.length_nil, Nat.mul_zero, Nat.add_zero, Nat.zero_add] at hlen
      have hcurne : current ≠ [] := by
        intro h; subst h; simp [List.isEmpty] at hempty
      have hval : digitsToNat current < m := by
        have := innerScan_value m (d :: s) [] 0
        rw [hscan] at this
        rcases this with h | h
        · exact absurd h hcurne
        · exact h
      simp only [splitFuel, hscan, hempty, if_neg, Bool.false_eq_true,
        not_false_iff, if_false, Option.map_eq_some'] at hsome
      obtain ⟨bs, hbs, rfl⟩ := hsome
      have hdigrest : ∀ x ∈ rest, x < 10 := by
        intro x hx
        exact hdig x (by rw [← happ]; exact List.mem_append_right _ hx)
      have hdigcur : ∀ x ∈ current, x < 10 := by
        intro x hx
        exact hdig x (by rw [← happ]; exact List.mem_append_left _ hx)
      obtain ⟨hrec, hprops, chunks, hjoin, hfa⟩ := ih bs hdigrest hbs
      have hcl : current.length = 2 * count := by omega
      have hpad : padZeros (2 * count) (digitsOf (digitsToNat current)) = current := by
        rw [← hcl]
        exact pad_digits_roundtrip current hdigcur
          (by cases current with
              | nil => exact absurd rfl hcurne
              | cons x xs => simp)
      refine ⟨?_, ?_, current :: chunks, ?_, ?_⟩
      · rw [reconstruct_cons]
        simp only
        rw [hpad, hrec, happ]
      · intro b hb
        rcases List.mem_cons.mp hb with rfl | hb
        · dsimp only
          refine ⟨hval, ?_, ?_⟩
          · have : current.length ≠ 0 := by
              cases current with
              | nil => exact absurd rfl hcurne
              | cons x xs => simp
            omega
          · have := congrArg List.length hpad
            simp only [padZeros, List.length_append, List.length_replicate] at this
            omega
        · exact hprops b hb
      · simp [hjoin, happ]
      · exact List.Forall₂.cons ⟨hcl, rfl, hdigcur⟩ hfa

end RSAcore

namespace RSAcore

theorem pairsBelow_drop_two (m : Nat) (s : List Nat) (h : pairsBelow m s = true) :
    pairsBelow m (s.drop 2) = true := by
  match s with
  | [] => simp [pairsBelow]
  | [d] => simp [pairsBelow]
  | d1 :: d2 :: rest =>
      simp only [pairsBelow, Bool.and_eq_true] at h
      simpa using h.2

end RSAcore

namespace RSAcore

theorem pairsBelow_drop_two_mul (m : Nat) :
    ∀ (k : Nat) (s : List Nat), pairsBelow m s = true →
    pairsBelow m (s.drop (2 * k)) = true := by
  intro k
  induction k with
  | zero => intro s h; simpa using h
  | succ k ih =>
      intro s h
      have h2 : 2 * (k + 1) = 2 + 2 * k := by ring
      rw [h2, ← List.drop_drop]
      exact ih (s.drop 2) (pairsBelow_drop_two m s h)

end RSAcore

namespace RSAcore

theorem splitFuel_terminates (m : Nat) : ∀ (fuel : Nat) (s : List Nat),
    pairsBelow m s = true → s.length % 2 = 0 → s.length < fuel →
    ∃ bs, splitFuel m fuel s = some bs := by
  intro fuel
  induction fuel with
  | zero => intro s _ _ h; omega
  | succ fuel ih =>
      intro s hpairs heven hlen
      match s with
      | [] => exact ⟨[], by simp [splitFuel]⟩
      | [d] => simp at heven
      | d1 :: d2 :: rest =>
          have hpair : 10 * d1 + d2 < m := by
            simp only [pairsBelow, Bool.and_eq_true, decide_eq_true_eq] at hpairs
            exact hpairs.1
          rcases hscan : innerScan m (d1 :: d2 :: rest) [] 0 with ⟨current, count, rest2⟩
          have hprog := innerScan_progress m d1 d2 rest hpair
          rw [hscan] at hprog
          dsimp only at hprog
          have hlen2 := innerScan_len m (d1 :: d2 :: rest) [] 0
          rw [hscan] at hlen2
          dsimp only at hlen2
          simp only [List.length_nil, Nat.mul_zero, Nat.add_zero, Nat.zero_add] at hlen2
          have happ := innerScan_append m (d1 :: d2 :: rest) [] 0
          rw [hscan] at happ
          dsimp only at happ
          simp only [List.nil_append] at happ
          have hcl : current.length = 2 * count := by omega
          have hrest2 : rest2 = (d1 :: d2 :: rest).drop (2 * count) := by
            rw [← happ, ← hcl, List.drop_left]
          have hcurne : current.isEmpty = false := by
            cases hc : current with
            | nil => rw [hc] at hcl; simp at hcl; omega
            | cons x xs => simp
          have hrlen : rest2.length = (d1 :: d2 :: rest).length - 2 * count := by
            rw [hrest2, List.length_drop]
          have hslen : (d1 :: d2 :: rest).length = rest.length + 2 := by simp
          obtain ⟨bs, hbs⟩ := ih rest2
            (by rw [hrest2]; exact pairsBelow_drop_two_mul m count _ hpairs)
            (by omega) (by omega)
          refine ⟨(digitsToNat current, count) :: bs, ?_⟩
          simp only [splitFuel, hscan, hcurne, Bool.false_eq_true, if_false, hbs,
            Option.map_some']

end RSAcore

theorem modPowLoop_zero_exp (m : Nat) : ∀ fuel r b,
    TestRSA.modPowLoop m fuel r b 0 = r := by
  intro fuel r b
  cases fuel <;> simp [TestRSA.modPowLoop]

/-- The traced variant computes the same value as the plain loop. -/
theorem modPowLoopT_eq_modPowLoop (m : Nat) : ∀ fuel r b e,
    RSAcore.modPowLoopT m fuel r b e = TestRSA.modPowLoop m fuel r b e := by
  intro fuel
  induction fuel with
  | zero => intro r b e; rfl
  | succ fuel ih =>
      intro r b e
      by_cases he : e = 0
      · simp [RSAcore.modPowLoopT, TestRSA.modPowLoop, he]
      · by_cases he2 : e / 2 = 0
        · simp only [RSAcore.modPowLoopT, TestRSA.modPowLoop, if_neg he, if_pos he2]
          rw [he2, modPowLoop_zero_exp]
        · simp only [RSAcore.modPowLoopT, TestRSA.modPowLoop, if_neg he, if_neg he2]
          rw [ih]

theorem mulmod_powmod (m r x k : Nat) : r * (x % m) ^ k % m = r * x ^ k % m := by
  rw [Nat.mul_mod, ← Nat.pow_mod, ← Nat.mul_mod]

theorem modPowLoop_mod_correct (m : Nat) : ∀ fuel e r b, e ≤ fuel →
    TestRSA.modPowLoop m fuel r b e % m = r * b ^ e % m := by
  intro fuel
  induction fuel with
  | zero =>
      intro e r b he
      have : e = 0 := by omega
      subst this
      simp [TestRSA.modPowLoop]
  | succ fuel ih =>
      intro e r b he
      by_cases he0 : e = 0
      · subst he0; simp [TestRSA.modPowLoop]
      · simp only [TestRSA.modPowLoop, if_neg he0]
        rw [ih (e / 2) _ _ (by omega)]
        have hb2 : (b * b) ^ (e / 2) = b ^ (2 * (e / 2)) := by
          rw [pow_mul, pow_two]
        rcases Nat.mod_two_eq_zero_or_one e with hpar | hpar
        · rw [hpar]
          simp only [Nat.zero_ne_one, if_false]
          rw [mulmod_powmod, hb2]
          have h1 : r * b ^ (2 * (e / 2)) = r * b ^ e := by
            have : 2 * (e / 2) = e := by omega
            rw [this]
          rw [h1]
        · rw [hpar]
          simp only [if_pos]
          rw [mulmod_powmod, Nat.mod_mul_mod, hb2]
          have h1 : r * b * b ^ (2 * (e / 2)) = r * b ^ e := by
            have h2 : e = 2 * (e / 2) + 1 := by omega
            calc r * b * b ^ (2 * (e / 2)) = r * b ^ (2 * (e / 2) + 1) := by ring
              _ = r * b ^ e := by rw [← h2]
          rw [h1]

theorem modPowLoop_lt (m : Nat) (hm : 1 ≤ m) : ∀ fuel e r b, 1 ≤ e → e ≤ fuel →
    TestRSA.modPowLoop m fuel r b e < m := by
  intro fuel
  induction fuel with
  | zero => intro e r b h1 h2; omega
  | succ fuel ih =>
      intro e r b h1 h2
      have he0 : e ≠ 0 := by omega
      simp only [TestRSA.modPowLoop, if_neg he0]
      by_cases he2 : e / 2 = 0
      · have he1 : e = 1 := by omega
        rw [he2, modPowLoop_zero_exp, he1]
        simp only [Nat.one_mod_eq_zero_iff]
        have : r * b % m < m := Nat.mod_lt _ (by omega)
        simpa [he1] using this
      · exact ih (e / 2) _ _ (by omega) (by omega)

theorem modular_exponentiation_zero_exp (b m : Nat) :
    TestRSA.modular_exponentiation b 0 m = 1 := rfl

theorem modular_exponentiation_correct_pos (b e m : Nat) (hm : 1 ≤ m) (he : 1 ≤ e) :
    TestRSA.modular_exponentiation b e m = b ^ e % m := by
  unfold TestRSA.modular_exponentiation
  have hlt : TestRSA.modPowLoop m e 1 (b % m) e < m :=
    modPowLoop_lt m hm e e 1 (b % m) he (Nat.le_refl e)
  have hmod := modPowLoop_mod_correct m e e 1 (b % m) (Nat.le_refl e)
  rw [Nat.mod_eq_of_lt hlt] at hmod
  rw [hmod, Nat.one_mul, ← Nat.pow_mod]

theorem modular_exponentiation_correct (b e m : Nat) (hm : 2 ≤ m) :
    TestRSA.modular_exponentiation b e m = b ^ e % m := by
  rcases Nat.eq_zero_or_pos e with rfl | he
  · rw [modular_exponentiation_zero_exp]
    rw [pow_zero, Nat.mod_eq_of_lt (by omega)]
  · exact modular_exponentiation_correct_pos b e m (by omega) he

theorem modular_exponentiation_traced_eq (b e m : Nat) :
    RSAcore.modular_exponentiation_traced b e m = TestRSA.modular_exponentiation b e m := by
  unfold RSAcore.modular_exponentiation_traced TestRSA.modular_exponentiation
  rw [modPowLoopT_eq_modPowLoop]

theorem modular_exponentiation_int_neg (b e m : Int) (he : e < 0) :
    TestRSA.modular_exponentiation_int b e m = 1 := by
  unfold TestRSA.modular_exponentiation_int
  simp only [TestRSA.modPowLoopI, if_neg (by omega : ¬ (0 : Int) < e)]

theorem modular_exponentiation_traced_int_neg (b e m : Int) (he : e < 0) :
    RSAcore.modular_exponentiation_traced_int b e m = 1 := by
  unfold RSAcore.modular_exponentiation_traced_int
  simp only [RSAcore.modPowLoopTI, if_neg (by omega : ¬ (0 : Int) < e)]

theorem fmod_natAbs_lt (a b : Int) (hb : b ≠ 0) :
    (Int.fmod a b).natAbs < b.natAbs := by
  rcases Int.lt_or_lt_of_ne hb with hneg | hpos
  · match a, b with
    | Int.ofNat 0, b =>
        show (Int.fmod 0 b).natAbs < b.natAbs
        rw [Int.zero_fmod]
        simpa using Int.natAbs_pos.mpr hb
    | Int.ofNat (Nat.succ m), Int.negSucc n =>
        show (Int.subNatNat (m % Nat.succ n) n).natAbs < (Int.negSucc n).natAbs
        rw [Int.subNatNat_eq_coe, Int.natAbs_negSucc]
        have : m % Nat.succ n < Nat.succ n := Nat.mod_lt _ (Nat.succ_pos n)
        omega
    | Int.negSucc m, Int.negSucc n =>
        show (-(Int.ofNat (Nat.succ m % Nat.succ n))).natAbs < (Int.negSucc n).natAbs
        rw [Int.natAbs_neg, Int.natAbs_negSucc]
        have : Nat.succ m % Nat.succ n < Nat.succ n := Nat.mod_lt _ (Nat.succ_pos n)
        simpa using this
    | Int.ofNat (Nat.succ m), Int.ofNat n =>
        exact absurd hneg (by simp [Int.ofNat_eq_natCast])
    | Int.negSucc m, Int.ofNat n =>
        exact absurd hneg (by simp [Int.ofNat_eq_natCast])
  · have h1 : 0 ≤ Int.fmod a b := Int.fmod_nonneg' a hpos
    have h2 : Int.fmod a b < b := Int.fmod_lt_of_pos a hpos
    omega

theorem egcdAux_spec : ∀ (fuel : Nat) (a b : Int), b.natAbs < fuel →
    a * (RSAcore.egcdAux fuel a b).2.1 + b * (RSAcore.egcdAux fuel a b).2.2 =
      (RSAcore.egcdAux fuel a b).1 ∧
    (RSAcore.egcdAux fuel a b).1 ∣ a ∧ (RSAcore.egcdAux fuel a b).1 ∣ b ∧
    (0 ≤ a → 0 ≤ b → 0 ≤ (RSAcore.egcdAux fuel a b).1) := by
  intro fuel
  induction fuel with
  | zero => intro a b h; omega
  | succ fuel ih =>
      intro a b hfuel
      by_cases hb : b = 0
      · subst hb
        simp [RSAcore.egcdAux]
      · have hrec : (Int.fmod a b).natAbs < fuel := by
          have h1 := fmod_natAbs_lt a b hb
          omega
        obtain ⟨hbez, hdb, hdm, hsign⟩ := ih b (Int.fmod a b) hrec
        simp only [RSAcore.egcdAux, if_neg hb]
        set r := RSAcore.egcdAux fuel b (Int.fmod a b) with hr
        refine ⟨?_, ?_, hdb, ?_⟩
        · have hfm : Int.fmod a b = a - b * Int.fdiv a b := Int.fmod_def a b
          calc a * r.2.2 + b * (r.2.1 - Int.fdiv a b * r.2.2)
              = b * r.2.1 + (a - b * Int.fdiv a b) * r.2.2 := by ring
            _ = b * r.2.1 + Int.fmod a b * r.2.2 := by rw [← hfm]
            _ = r.1 := hbez
        · have hsum : Int.fmod a b + b * Int.fdiv a b = a := Int.fmod_add_fdiv a b
          calc r.1 ∣ Int.fmod a b + b * Int.fdiv a b :=
              dvd_add hdm (Dvd.dvd.mul_right hdb _)
            _ = a := hsum
        · intro ha hbpos
          exact hsign hbpos (Int.fmod_nonneg' a (by omega))

theorem egcdAbsAux_spec : ∀ (fuel : Nat) (a b : Int), b.natAbs < fuel →
    a * (TestRSA.egcdAbsAux fuel a b).2.1 + b * (TestRSA.egcdAbsAux fuel a b).2.2 =
      (TestRSA.egcdAbsAux fuel a b).1 ∧
    (TestRSA.egcdAbsAux fuel a b).1 ∣ a ∧ (TestRSA.egcdAbsAux fuel a b).1 ∣ b ∧
    0 ≤ (TestRSA.egcdAbsAux fuel a b).1 := by
  intro fuel
  induction fuel with
  | zero => intro a b h; omega
  | succ fuel ih =>
      intro a b hfuel
      by_cases hb : b = 0
      · subst hb
        have hred : TestRSA.egcdAbsAux (fuel + 1) a 0 =
            ((a.natAbs : Int), if 0 ≤ a then 1 else -1, 0) := by
          simp [TestRSA.egcdAbsAux]
        rw [hred]
        refine ⟨?_, ?_, dvd_zero _, by dsimp only; positivity⟩
        · by_cases ha : 0 ≤ a
          · simp only [if_pos ha]
            omega
          · simp only [if_neg ha]
            omega
        · exact Int.natAbs_dvd.mpr dvd_rfl
      · have hrec : (Int.fmod a b).natAbs < fuel := by
          have h1 := fmod_natAbs_lt a b hb
          omega
        obtain ⟨hbez, hdb, hdm, hsign⟩ := ih b (Int.fmod a b) hrec
        simp only [TestRSA.egcdAbsAux, if_neg hb]
        set r := TestRSA.egcdAbsAux fuel b (Int.fmod a b) with hr
        refine ⟨?_, ?_, hdb, hsign⟩
        · have hfm : Int.fmod a b = a - b * Int.fdiv a b := Int.fmod_def a b
          calc a * r.2.2 + b * (r.2.1 - Int.fdiv a b * r.2.2)
              = b * r.2.1 + (a - b * Int.fdiv a b) * r.2.2 := by ring
            _ = b * r.2.1 + Int.fmod a b * r.2.2 := by rw [← hfm]
            _ = r.1 := hbez
        · have hsum : Int.fmod a b + b * Int.fdiv a b = a := Int.fmod_add_fdiv a b
          calc r.1 ∣ Int.fmod a b + b * Int.fdiv a b :=
              dvd_add hdm (Dvd.dvd.mul_right hdb _)
            _ = a := hsum

theorem TestRSA_extended_gcd_bezout (a b : Int) :
    a * (TestRSA.extended_gcd a b).2.1 + b * (TestRSA.extended_gcd a b).2.2 =
      (TestRSA.extended_gcd a b).1 :=
  (egcdAbsAux_spec (b.natAbs + 1) a b (by omega)).1

theorem TestRSA_extended_gcd_eq_gcd (a b : Int) :
    (TestRSA.extended_gcd a b).1 = (Int.gcd a b : Int) := by
  unfold TestRSA.extended_gcd
  obtain ⟨hbez, hda, hdb, hpos⟩ := egcdAbsAux_spec (b.natAbs + 1) a b (by omega)
  refine Int.gcd_greatest hpos hda hdb ?_
  intro e hea heb
  rw [← hbez]
  exact dvd_add (hea.mul_right _) (heb.mul_right _)

theorem RSAcore_extended_gcd_bezout (a b : Int) :
    a * (RSAcore.extended_gcd a b).2.1 + b * (RSAcore.extended_gcd a b).2.2 =
      (RSAcore.extended_gcd a b).1 :=
  (egcdAux_spec (b.natAbs + 1) a b (by omega)).1

theorem RSAcore_extended_gcd_eq_gcd (a b : Int) (ha : 0 ≤ a) (hb : 0 ≤ b) :
    (RSAcore.extended_gcd a b).1 = (Int.gcd a b : Int) := by
  unfold RSAcore.extended_gcd
  obtain ⟨hbez, hda, hdb, hpos⟩ := egcdAux_spec (b.natAbs + 1) a b (by omega)
  refine Int.gcd_greatest (hpos ha hb) hda hdb ?_
  intro e hea heb
  rw [← hbez]
  exact dvd_add (hea.mul_right _) (heb.mul_right _)

theorem gcd_eq_one_of_bezout {a m g : Int} (hbez : ∃ x y, a * x + m * y = g)
    (hg : g = 1) : Int.gcd a m = 1 := by
  obtain ⟨x, y, hxy⟩ := hbez
  have hdvd : (Int.gcd a m : Int) ∣ 1 := by
    rw [← hg, ← hxy]
    exact dvd_add (Int.gcd_dvd_left.mul_right _) (Int.gcd_dvd_right.mul_right _)
  have : (Int.gcd a m) ∣ 1 := by exact_mod_cast hdvd
  exact Nat.dvd_one.mp this

theorem inverse_mod_of_bezout {a m x y : Int} (hm : 2 ≤ m)
    (hxy : a * x + m * y = 1) : a * (Int.fmod x m) % m = 1 := by
  rw [Int.fmod_eq_emod x (by omega)]
  have h1 : a * (x % m) % m = a * x % m := by
    rw [Int.mul_emod a (x % m) m, Int.emod_emod_of_dvd x dvd_rfl, ← Int.mul_emod]
  rw [h1]
  have h2 : a * x = 1 + m * (-y) := by linear_combination hxy
  rw [h2, Int.add_mul_emod_self_left]
  exact Int.emod_eq_of_lt (by omega) (by omega)

theorem modular_inverse_of_coprime (a m : Int) (hm : 2 ≤ m)
    (h : Int.gcd a m = 1) :
    TestRSA.modular_inverse a m = some (Int.fmod (TestRSA.extended_gcd a m).2.1 m) ∧
    0 ≤ Int.fmod (TestRSA.extended_gcd a m).2.1 m ∧
    Int.fmod (TestRSA.extended_gcd a m).2.1 m < m ∧
    a * Int.fmod (TestRSA.extended_gcd a m).2.1 m % m = 1 := by
  have hg : (TestRSA.extended_gcd a m).1 = 1 := by
    rw [TestRSA_extended_gcd_eq_gcd, h]; rfl
  have hbez := TestRSA_extended_gcd_bezout a m
  rw [hg] at hbez
  refine ⟨?_, Int.fmod_nonneg' _ (by omega), Int.fmod_lt_of_pos _ (by omega),
    inverse_mod_of_bezout hm hbez⟩
  unfold TestRSA.modular_inverse
  rcases he : TestRSA.extended_gcd a m with ⟨g, x, y⟩
  rw [he] at hg
  simp only at hg
  subst hg
  simp

theorem modular_inverse_of_not_coprime (a m : Int) (h : Int.gcd a m ≠ 1) :
    TestRSA.modular_inverse a m = none := by
  unfold TestRSA.modular_inverse
  rcases he : TestRSA.extended_gcd a m with ⟨g, x, y⟩
  have hg : g = (Int.gcd a m : Int) := by
    have := TestRSA_extended_gcd_eq_gcd a m
    rw [he] at this
    exact this
  have : g ≠ 1 := by
    rw [hg]
    intro hc
    exact h (by exact_mod_cast hc)
  simp [this]

theorem modinv_of_coprime (e phi : Int) (hm : 2 ≤ phi) (he : 0 ≤ e)
    (h : Int.gcd e phi = 1) :
    RSAcore.modinv e phi = some (Int.fmod (RSAcore.extended_gcd e phi).2.1 phi) ∧
    0 ≤ Int.fmod (RSAcore.extended_gcd e phi).2.1 phi ∧
    Int.fmod (RSAcore.extended_gcd e phi).2.1 phi < phi ∧
    e * Int.fmod (RSAcore.extended_gcd e phi).2.1 phi % phi = 1 := by
  have hg : (RSAcore.extended_gcd e phi).1 = 1 := by
    rw [RSAcore_extended_gcd_eq_gcd e phi he (by omega), h]; rfl
  have hbez := RSAcore_extended_gcd_bezout e phi
  rw [hg] at hbez
  refine ⟨?_, Int.fmod_nonneg' _ (by omega), Int.fmod_lt_of_pos _ (by omega),
    inverse_mod_of_bezout hm hbez⟩
  unfold RSAcore.modinv
  rcases hrw : RSAcore.extended_gcd e phi with ⟨g, x, y⟩
  rw [hrw] at hg
  simp only at hg
  subst hg
  simp

theorem modinv_of_not_coprime (e phi : Int) (h : Int.gcd e phi ≠ 1) :
    RSAcore.modinv e phi = none := by
  unfold RSAcore.modinv
  rcases hrw : RSAcore.extended_gcd e phi with ⟨g, x, y⟩
  have hbez := RSAcore_extended_gcd_bezout e phi
  rw [hrw] at hbez
  simp only at hbez
  by_cases hg : g = 1
  · exact absurd (gcd_eq_one_of_bezout ⟨x, y, hbez⟩ hg) h
  · simp [hg]

theorem char_toNat_ofNat (n : Nat) (h : n < 55296) : (Char.ofNat n).toNat = n := by
  have hv : n.isValidChar := Or.inl h
  simp [Char.ofNat, hv, Char.ofNatAux, Char.toNat, UInt32.toNat]

theorem char_toUpper_toNat (c : Char) :
    c.toUpper.toNat = if 97 ≤ c.toNat ∧ c.toNat ≤ 122 then c.toNat - 32 else c.toNat := by
  unfold Char.toUpper
  by_cases h : 97 ≤ c.toNat ∧ c.toNat ≤ 122
  · rw [if_pos (by exact ⟨h.1, h.2⟩), if_pos h]
    exact char_toNat_ofNat _ (by omega)
  · rw [if_neg (by intro hc; exact h ⟨hc.1, hc.2⟩), if_neg h]

theorem char_toUpper_of_upper (c : Char) (h : 65 ≤ c.toNat ∧ c.toNat ≤ 90) :
    c.toUpper = c := by
  unfold Char.toUpper
  rw [if_neg (by omega)]

theorem letterCodeU_of_upper (c : Char) (h : 65 ≤ c.toNat ∧ c.toNat ≤ 90) :
    TestRSA.letterCodeU c =
      [(c.toNat - 65) / 10, (c.toNat - 65) % 10] := by
  unfold TestRSA.letterCodeU
  rw [char_toUpper_of_upper c h, if_pos h]

theorem letterCodeU_shape (c : Char) :
    TestRSA.letterCodeU c = [] ∨
    ∃ v, v ≤ 25 ∧ TestRSA.letterCodeU c = [v / 10, v % 10] := by
  unfold TestRSA.letterCodeU
  by_cases h : 65 ≤ c.toUpper.toNat ∧ c.toUpper.toNat ≤ 90
  · right
    exact ⟨c.toUpper.toNat - 65, by omega, by rw [if_pos h]⟩
  · left; rw [if_neg h]

theorem letterCode_shape (c : Char) :
    RSAcore.letterCode c = [] ∨
    ∃ v, v ≤ 25 ∧ RSAcore.letterCode c = [v / 10, v % 10] := by
  unfold RSAcore.letterCode
  by_cases halpha : (65 ≤ c.toNat ∧ c.toNat ≤ 90) ∨ (97 ≤ c.toNat ∧ c.toNat ≤ 122)
  · by_cases h : 65 ≤ c.toUpper.toNat ∧ c.toUpper.toNat ≤ 90
    · right
      exact ⟨c.toUpper.toNat - 65, by omega, by rw [if_pos halpha, if_pos h]⟩
    · left; rw [if_pos halpha, if_neg h]
  · left; rw [if_neg halpha]

/-- Shape facts for a whole encoded string: entries are digits, the length
is even, every aligned 2-digit group has value at most 25. -/
theorem encoded_props (enc : Char → List Nat)
    (hshape : ∀ c, enc c = [] ∨ ∃ v, v ≤ 25 ∧ enc c = [v / 10, v % 10]) :
    ∀ text : List Char,
      (∀ d ∈ (List.map enc text).flatten, d < 10) ∧
      (List.map enc text).flatten.length % 2 = 0 ∧
      pairsBelow 26 (List.map enc text).flatten = true := by
  intro text
  induction text with
  | nil => exact ⟨by simp, by simp, by simp [pairsBelow]⟩
  | cons c rest ih =>
      obtain ⟨ih1, ih2, ih3⟩ := ih
      rcases hshape c with h | ⟨v, hv, h⟩
      · simp only [List.map_cons, List.flatten_cons, h, List.nil_append]
        exact ⟨ih1, ih2, ih3⟩
      · simp only [List.map_cons, List.flatten_cons, h, List.cons_append,
          List.nil_append]
        refine ⟨?_, ?_, ?_⟩
        · intro d hd
          rcases List.mem_cons.mp hd with rfl | hd
          · omega
          · rcases List.mem_cons.mp hd with rfl | hd
            · omega
            · exact ih1 d hd
        · simp only [List.length_cons]
          omega
        · simp only [pairsBelow, Bool.and_eq_true, decide_eq_true_eq]
          exact ⟨by omega, ih3⟩

theorem decode_encode_upper (text : List Char)
    (h : ∀ c ∈ text, 65 ≤ c.toNat ∧ c.toNat ≤ 90) :
    TestRSA.numbers_to_text (TestRSA.text_to_numbers text) = text := by
  induction text with
  | nil => rfl
  | cons c rest ih =>
      have hc := h c (List.mem_cons_self c rest)
      have hrest := ih fun x hx => h x (List.mem_cons_of_mem c hx)
      unfold TestRSA.text_to_numbers at hrest ⊢
      simp only [List.map_cons, List.flatten_cons, letterCodeU_of_upper c hc,
        List.cons_append, List.nil_append]
      unfold TestRSA.numbers_to_text at hrest ⊢
      show (if 10 * ((c.toNat - 65) / 10) + (c.toNat - 65) % 10 ≤ 25 then
          [Char.ofNat (65 + (10 * ((c.toNat - 65) / 10) + (c.toNat - 65) % 10))] else []) ++
          RSAcore.map_numbers_to_text (List.map TestRSA.letterCodeU rest).flatten = c :: rest
  -- the recombined group value is the letter index itself
      have hval : 10 * ((c.toNat - 65) / 10) + (c.toNat - 65) % 10 = c.toNat - 65 := by
        omega
      rw [hval, if_pos (by omega)]
      have hchar : (65 + (c.toNat - 65)) = c.toNat := by omega
      rw [hchar, Char.ofNat_toNat, hrest]
      rfl

theorem pairsBelow_mono (m1 m2 : Nat) (h : m1 ≤ m2) :
    ∀ s, pairsBelow m1 s = true → pairsBelow m2 s = true := by
  intro s
  induction s using pairsBelow.induct m1 with
  | case1 d1 d2 rest ih =>
      simp only [pairsBelow, Bool.and_eq_true, decide_eq_true_eq]
      intro ⟨h1, h2⟩
      exact ⟨by omega, ih h2⟩
  | case2 s hs =>
      match s, hs with
      | [], _ => simp [pairsBelow]
      | [d], _ => simp [pairsBelow]
      | d1 :: d2 :: rest, hs => exact absurd rfl (hs d1 d2 rest)

theorem pow_totient_prime (p : Nat) (hp : p.Prime) (v t : Nat) :
    v ^ (t * (p - 1) + 1) ≡ v [MOD p] := by
  haveI := Fact.mk hp
  have hzmod : ((v : ZMod p)) ^ (t * (p - 1) + 1) = (v : ZMod p) := by
    by_cases hv : (v : ZMod p) = 0
    · rw [hv, zero_pow (by omega : t * (p - 1) + 1 ≠ 0)]
    · have hmc : t * (p - 1) = (p - 1) * t := by ring
      rw [pow_succ, hmc, pow_mul, ZMod.pow_card_sub_one_eq_one hv, one_pow, one_mul]
  have := (ZMod.natCast_eq_natCast_iff (v ^ (t * (p - 1) + 1)) v p).mp (by push_cast; exact hzmod)
  exact this

theorem rsa_pow_identity (p q K v : Nat) (hp : p.Prime) (hq : q.Prime)
    (hpq : p ≠ q) :
    v ^ (K * ((p - 1) * (q - 1)) + 1) ≡ v [MOD p * q] := by
  have hcop : Nat.Coprime p q := (Nat.coprime_primes hp hq).mpr hpq
  have h1 : v ^ (K * ((p - 1) * (q - 1)) + 1) ≡ v [MOD p] := by
    have he : K * ((p - 1) * (q - 1)) = (K * (q - 1)) * (p - 1) := by ring
    rw [he]
    exact pow_totient_prime p hp v _
  have h2 : v ^ (K * ((p - 1) * (q - 1)) + 1) ≡ v [MOD q] := by
    have he : K * ((p - 1) * (q - 1)) = (K * (p - 1)) * (q - 1) := by ring
    rw [he]
    exact pow_totient_prime q hq v _
  exact (Nat.modEq_and_modEq_iff_modEq_mul hcop).mp ⟨h1, h2⟩

theorem rsa_block_roundtrip (p q e d v : Nat) (hp : p.Prime) (hq : q.Prime)
    (hpq : p ≠ q) (he : 1 ≤ e) (hd : 1 ≤ d)
    (hed : (e * d) % ((p - 1) * (q - 1)) = 1) (hv : v < p * q) :
    TestRSA.modular_exponentiation (TestRSA.modular_exponentiation v e (p * q)) d (p * q) = v := by
  have hn2 : 2 ≤ p * q := by
    have := hp.two_le
    have := hq.two_le
    nlinarith
  rw [modular_exponentiation_correct_pos _ _ _ (by omega) he,
    modular_exponentiation_correct_pos _ _ _ (by omega) hd,
    ← Nat.pow_mod, ← pow_mul]
  have hK : e * d = (e * d / ((p - 1) * (q - 1))) * ((p - 1) * (q - 1)) + 1 := by
    have h0 := Nat.div_add_mod (e * d) ((p - 1) * (q - 1))
    rw [Nat.mul_comm] at h0
    omega
  rw [hK]
  have := rsa_pow_identity p q (e * d / ((p - 1) * (q - 1))) v hp hq hpq
  unfold Nat.ModEq at this
  rw [this, Nat.mod_eq_of_lt hv]

/-- The digit string rebuilt inside `decrypt_message` is exactly
`reconstruct_numeric_string` applied to the blockwise-decrypted list. -/
theorem decrypt_foldl_eq_reconstruct (d n : Nat) (blocks : List (Nat × Nat)) :
    blocks.foldl
      (fun acc b =>
        acc ++ padZeros (2 * b.2) (digitsOf (TestRSA.modular_exponentiation b.1 d n))) [] =
    RSAcore.reconstruct_numeric_string
      (blocks.map fun b => (TestRSA.modular_exponentiation b.1 d n, b.2)) := by
  have haux : ∀ (l : List (Nat × Nat)) (acc : List Nat),
      l.foldl (fun acc b =>
        acc ++ padZeros (2 * b.2) (digitsOf (TestRSA.modular_exponentiation b.1 d n))) acc =
      acc ++ l.foldl (fun acc b =>
        acc ++ padZeros (2 * b.2) (digitsOf (TestRSA.modular_exponentiation b.1 d n))) [] := by
    intro l
    induction l with
    | nil => simp
    | cons b l ih =>
        intro acc
        simp only [List.foldl_cons]
        rw [ih (acc ++ _), ih (List.nil ++ _)]
        simp
  induction blocks with
  | nil => rfl
  | cons b bs ih =>
      simp only [List.foldl_cons, List.map_cons, List.nil_append]
      rw [RSAcore.reconstruct_cons, haux, ih]

theorem phi_ge_two (p q : Nat) (hp : p.Prime) (hq : q.Prime) (hpq : p ≠ q) :
    2 ≤ (p - 1) * (q - 1) := by
  have h2p := hp.two_le
  have h2q := hq.two_le
  rcases Nat.lt_or_ge 2 p with h3 | h3
  · have : 1 ≤ q - 1 := by omega
    have : 2 ≤ p - 1 := by omega
    nlinarith
  · have hp2 : p = 2 := by omega
    have h3q : q ≠ 2 := by omega
    have h3 : 3 ≤ q := by omega
    subst hp2
    have hone : (2 - 1) * (q - 1) = q - 1 := by
      simp
    omega

/-- C1 (amended): for p, q prime with p ≠ q, n = p·q with n > 25 (so that
the packer can always make progress), gcd(e, (p-1)(q-1)) = 1, and d the
private exponent returned by `modular_inverse(e, phi)`, decrypting the
encryption of any text of UPPERCASE alphabetic characters A-Z returns the
text unchanged.  (The original claim, over all alphabetic texts and
without the n > 25 bound, is refuted by `C1_counterexample`: lowercase
letters come back uppercased.) -/
theorem C1_roundtrip_amended (p q e n : Nat) (dI : Int) (text : List Char)
    (hp : p.Prime) (hq : q.Prime) (hpq : p ≠ q) (hn : n = p * q) (hn25 : 25 < n)
    (hgcd : Nat.gcd e ((p - 1) * (q - 1)) = 1)
    (hinv : TestRSA.modular_inverse (e : Int) (((p - 1) * (q - 1) : Nat) : Int) = some dI)
    (htext : ∀ c ∈ text, 65 ≤ c.toNat ∧ c.toNat ≤ 90) :
    (TestRSA.encrypt_message text e n).map
      (fun bs => TestRSA.decrypt_message bs dI.toNat n) = some text := by
  have hphi2 : 2 ≤ (p - 1) * (q - 1) := phi_ge_two p q hp hq hpq
  have hgcdI : Int.gcd (e : Int) (((p - 1) * (q - 1) : Nat) : Int) = 1 := by
    rw [Int.gcd_natCast_natCast]
    exact hgcd
  obtain ⟨hsome, hDnn, hDlt, hDinv⟩ :=
    modular_inverse_of_coprime (e : Int) (((p - 1) * (q - 1) : Nat) : Int)
      (by exact_mod_cast hphi2) hgcdI
  rw [hinv] at hsome
  have hdI : dI = Int.fmod (TestRSA.extended_gcd (e : Int)
      (((p - 1) * (q - 1) : Nat) : Int)).2.1 (((p - 1) * (q - 1) : Nat) : Int) :=
    Option.some_inj.mp hsome
  rw [← hdI] at hDnn hDlt hDinv
  set d := dI.toNat with hd
  have hdI2 : (d : Int) = dI := Int.toNat_of_nonneg hDnn
  have hed : (e * d) % ((p - 1) * (q - 1)) = 1 := by
    have hcast : (((e * d) % ((p - 1) * (q - 1)) : Nat) : Int) = 1 := by
      push_cast
      rw [hdI2]
      exact_mod_cast hDinv
    exact_mod_cast hcast
  have he1 : 1 ≤ e := by
    rcases Nat.eq_zero_or_pos e with rfl | h
    · rw [Nat.gcd_zero_left] at hgcd
      omega
    · exact h
  have hd1 : 1 ≤ d := by
    rcases Nat.eq_zero_or_pos d with h0 | h
    · rw [h0, Nat.mul_zero, Nat.zero_mod] at hed
      omega
    · exact h
  obtain ⟨hdig, heven, hpairs⟩ :=
    encoded_props TestRSA.letterCodeU letterCodeU_shape text
  set s := (List.map TestRSA.letterCodeU text).flatten with hs
  have hpairsn : pairsBelow n s = true :=
    pairsBelow_mono 26 n (by omega) s hpairs
  obtain ⟨blocks0, hsplit⟩ :=
    RSAcore.splitFuel_terminates n (s.length + 1) s hpairsn heven (by omega)
  obtain ⟨hrec, hprops, -⟩ := RSAcore.splitFuel_sound n (s.length + 1) s blocks0 hdig hsplit
  have hsplit2 : TestRSA.split_into_blocks (TestRSA.text_to_numbers text) n = some blocks0 := by
    unfold TestRSA.split_into_blocks RSAcore.split_into_blocks TestRSA.text_to_numbers
    exact hsplit
  have henc : TestRSA.encrypt_message text e n =
      some (blocks0.map fun b => (TestRSA.modular_exponentiation b.1 e n, b.2)) := by
    unfold TestRSA.encrypt_message
    rw [hsplit2, Option.map_some']
  rw [henc, Option.map_some']
  refine congrArg some ?_
  · unfold TestRSA.decrypt_message
    rw [decrypt_foldl_eq_reconstruct, List.map_map]
    have hmapid : (blocks0.map
        ((fun b => (TestRSA.modular_exponentiation b.1 d n, b.2)) ∘
          (fun b => (TestRSA.modular_exponentiation b.1 e n, b.2)))) = blocks0 := by
      have hcongr : ∀ b ∈ blocks0,
          ((fun b => (TestRSA.modular_exponentiation b.1 d n, b.2)) ∘
            (fun b => (TestRSA.modular_exponentiation b.1 e n, b.2))) b = id b := by
        intro b hb
        obtain ⟨hblt, -, -⟩ := hprops b hb
        simp only [Function.comp_apply, id_eq]
        have hround := rsa_block_roundtrip p q e d b.1 hp hq hpq he1 hd1 hed
          (by rw [← hn]; exact hblt)
        rw [← hn] at hround
        rw [hround]
      rw [List.map_congr_left hcongr, List.map_id]
    rw [hmapid, hrec]
    exact decode_encode_upper text htext

theorem map_numbers_to_text_chars_total : ∀ s : List Char,
    (∀ c ∈ s, 48 ≤ c.toNat ∧ c.toNat ≤ 57) →
    ∃ t, RSAcore.map_numbers_to_text_chars s = some t := by
  intro s
  induction s using RSAcore.map_numbers_to_text_chars.induct with
  | case1 c1 c2 rest ih =>
      intro h
      obtain ⟨t, ht⟩ := ih fun c hc => h c (by simp [hc])
      have h1 := h c1 (by simp)
      have h2 := h c2 (by simp)
      refine ⟨(if 10 * (c1.toNat - 48) + (c2.toNat - 48) ≤ 25 then
        [Char.ofNat (65 + (10 * (c1.toNat - 48) + (c2.toNat - 48)))] else []) ++ t, ?_⟩
      unfold RSAcore.map_numbers_to_text_chars
      rw [show RSAcore.parseDigit c1 = some (c1.toNat - 48) from by
          unfold RSAcore.parseDigit; rw [if_pos h1],
        show RSAcore.parseDigit c2 = some (c2.toNat - 48) from by
          unfold RSAcore.parseDigit; rw [if_pos h2]]
      simp only [Option.bind_some, Option.some_bind, ht]
      rfl
  | case2 s hs =>
      intro _
      match s, hs with
      | [], _ => exact ⟨[], rfl⟩
      | [c], _ => exact ⟨[], rfl⟩
      | c1 :: c2 :: rest, hs => exact absurd rfl (hs c1 c2 rest)

theorem letterCode_nonalpha (c : Char)
    (h : ¬ ((65 ≤ c.toNat ∧ c.toNat ≤ 90) ∨ (97 ≤ c.toNat ∧ c.toNat ≤ 122))) :
    RSAcore.letterCode c = [] := by
  unfold RSAcore.letterCode
  rw [if_neg h]

theorem map_text_to_numbers_filter (text : List Char) :
    RSAcore.map_text_to_numbers text =
      RSAcore.map_text_to_numbers (text.filter fun c =>
        decide ((65 ≤ c.toNat ∧ c.toNat ≤ 90) ∨ (97 ≤ c.toNat ∧ c.toNat ≤ 122))) := by
  induction text with
  | nil => rfl
  | cons c rest ih =>
      unfold RSAcore.map_text_to_numbers at ih ⊢
      by_cases h : (65 ≤ c.toNat ∧ c.toNat ≤ 90) ∨ (97 ≤ c.toNat ∧ c.toNat ≤ 122)
      · simp [List.filter_cons, h, ih]
      · simp [List.filter_cons, h, letterCode_nonalpha c h, ih]

/-- C1 witness: the classic textbook instance p = 61, q = 53, e = 17,
d = 2753, message HELLO round-trips. -/
theorem C1_roundtrip_witness :
    (TestRSA.encrypt_message (['H', 'E', 'L', 'L', 'O']) 17 3233).map
      (fun bs => TestRSA.decrypt_message bs (2753 : Int).toNat 3233) =
      some (['H', 'E', 'L', 'L', 'O']) :=
  C1_roundtrip_amended 61 53 17 3233 2753 (['H', 'E', 'L', 'L', 'O'])
    (by decide) (by decide) (by decide) (by decide) (by decide) (by decide)
    (by decide) (by decide)

/-- C1 counterexample: all hypotheses of the original claim hold for the
all-alphabetic text "h" with p = 61, q = 53, e = 17 and the derived
d = 2753, yet decrypt(encrypt("h")) = "H" ≠ "h": the round trip
uppercases, so equality with the original text fails for lowercase
alphabetic input. -/
theorem C1_counterexample :
    Nat.Prime 61 ∧ Nat.Prime 53 ∧ (61 : Nat) ≠ 53 ∧ Nat.gcd 17 3120 = 1 ∧
    TestRSA.modular_inverse 17 3120 = some 2753 ∧
    (TestRSA.encrypt_message ['h'] 17 3233).map
      (fun bs => TestRSA.decrypt_message bs 2753 3233) = some ['H'] ∧
    (['H'] ≠ ['h']) := by
  decide

/-- C2: for every digit string in the sense of the data model (decimal
digits, even length, every aligned 2-digit group at most 25) and every
modulus above 25, unpacking the packing reproduces the string:
`reconstruct_numeric_string (split_into_blocks s m) = s`. -/
theorem C2_pack_unpack (s : List Nat) (m : Nat)
    (hdig : ∀ d ∈ s, d < 10) (heven : s.length % 2 = 0)
    (hpairs : pairsBelow 26 s = true) (hm : 25 < m) :
    (RSAcore.split_into_blocks s m).map RSAcore.reconstruct_numeric_string =
      some s := by
  have hpm := pairsBelow_mono 26 m (by omega) s hpairs
  obtain ⟨blocks, hb⟩ :=
    RSAcore.splitFuel_terminates m (s.length + 1) s hpm heven (by omega)
  obtain ⟨hrec, -, -⟩ := RSAcore.splitFuel_sound m (s.length + 1) s blocks hdig hb
  unfold RSAcore.split_into_blocks
  rw [hb, Option.map_some', hrec]

/-- C2 witness: the digit string "0704" (letters H, E) with modulus 26. -/
theorem C2_pack_unpack_witness :
    (RSAcore.split_into_blocks [0, 7, 0, 4] 26).map
      RSAcore.reconstruct_numeric_string = some [0, 7, 0, 4] :=
  C2_pack_unpack [0, 7, 0, 4] 26 (by decide) (by decide) (by decide) (by decide)

theorem forall2_sum_len (chunks : List (List Nat)) (blocks : List (Nat × Nat))
    (h : List.Forall₂ (fun ch (b : Nat × Nat) =>
      ch.length = 2 * b.2 ∧ digitsToNat ch = b.1 ∧ ∀ d ∈ ch, d < 10) chunks blocks) :
    (blocks.map fun b => 2 * b.2).sum = chunks.flatten.length := by
  induction h with
  | nil => simp
  | cons h1 h2 ih =>
      simp only [List.map_cons, List.sum_cons, List.flatten_cons,
        List.length_append, ih, h1.1]

/-- C3: on every digit string of the data model (decimal digits, even
length, aligned 2-digit groups at most 25) and with the stated
precondition modulus > 25, the greedy scan of `split_into_blocks`
terminates (the outer loop needs at most `length + 1` iterations), the
blocks jointly consume the whole input (their letter counts sum to half
the length), and for non-empty input a non-empty trailing accumulator is
emitted, so the block list is non-empty and every block, the final one
included, carries at least one letter. -/
theorem C3_pack_terminates (s : List Nat) (m : Nat)
    (hdig : ∀ d ∈ s, d < 10) (heven : s.length % 2 = 0)
    (hpairs : pairsBelow 26 s = true) (hm : 25 < m) :
    RSAcore.split_into_blocks s m ≠ none ∧
    (RSAcore.split_into_blocks s m).map
      (fun blocks => (blocks.map fun b => 2 * b.2).sum) = some s.length ∧
    (s ≠ [] → (RSAcore.split_into_blocks s m).map
      (fun blocks => decide (blocks ≠ [] ∧ ∀ b ∈ blocks, 1 ≤ b.2)) = some true) := by
  have hpm := pairsBelow_mono 26 m (by omega) s hpairs
  obtain ⟨blocks, hb⟩ :=
    RSAcore.splitFuel_terminates m (s.length + 1) s hpm heven (by omega)
  obtain ⟨hrec, hprops, chunks, hjoin, hfa⟩ :=
    RSAcore.splitFuel_sound m (s.length + 1) s blocks hdig hb
  have hb2 : RSAcore.split_into_blocks s m = some blocks := hb
  refine ⟨by rw [hb2]; exact Option.some_ne_none _, ?_, ?_⟩
  · rw [hb2, Option.map_some']
    rw [forall2_sum_len chunks blocks hfa, hjoin]
  · intro hne
    rw [hb2, Option.map_some']
    refine congrArg some (decide_eq_true ⟨?_, fun b hbmem => (hprops b hbmem).2.1⟩)
    intro hb0
    subst hb0
    have : chunks = [] := List.length_eq_zero.mp
      (by rw [List.Forall₂.length_eq hfa]; rfl)
    subst this
    exact hne (hjoin.symm)

/-- C3 witness: the digit string "0704" with modulus 26. -/
theorem C3_pack_terminates_witness :
    RSAcore.split_into_blocks [0, 7, 0, 4] 26 ≠ none ∧
    (RSAcore.split_into_blocks [0, 7, 0, 4] 26).map
      (fun blocks => (blocks.map fun b => 2 * b.2).sum) = some 4 ∧
    (([0, 7, 0, 4] : List Nat) ≠ [] → (RSAcore.split_into_blocks [0, 7, 0, 4] 26).map
      (fun blocks => decide (blocks ≠ [] ∧ ∀ b ∈ blocks, 1 ≤ b.2)) = some true) :=
  C3_pack_terminates [0, 7, 0, 4] 26 (by decide) (by decide) (by decide) (by decide)

/-- C4: every block `(value, letter_count)` emitted by `split_into_blocks`
on a digit string satisfies `value < modulus`, `letter_count ≥ 1`, the
minimal decimal representation of `value` has at most `2 × letter_count`
digits, and the values are parses of whole aligned 2-digit groups: padding
each value back to `2 × letter_count` digits and concatenating reproduces
the input exactly. -/
theorem C4_block_invariants (s : List Nat) (m : Nat) (blocks : List (Nat × Nat))
    (hdig : ∀ d ∈ s, d < 10) (_heven : s.length % 2 = 0)
    (_hpairs : pairsBelow 26 s = true)
    (hsome : RSAcore.split_into_blocks s m = some blocks) :
    (∀ b ∈ blocks, b.1 < m ∧ 1 ≤ b.2 ∧ (digitsOf b.1).length ≤ 2 * b.2) ∧
    RSAcore.reconstruct_numeric_string blocks = s := by
  obtain ⟨hrec, hprops, -⟩ :=
    RSAcore.splitFuel_sound m (s.length + 1) s blocks hdig hsome
  exact ⟨hprops, hrec⟩

/-- C4 witness: packing "0704" with modulus 26 yields blocks (7,1), (4,1)
satisfying all invariants. -/
theorem C4_block_invariants_witness :
    (∀ b ∈ ([(7, 1), (4, 1)] : List (Nat × Nat)),
      b.1 < 26 ∧ 1 ≤ b.2 ∧ (digitsOf b.1).length ≤ 2 * b.2) ∧
    RSAcore.reconstruct_numeric_string [(7, 1), (4, 1)] = [0, 7, 0, 4] :=
  C4_block_invariants [0, 7, 0, 4] 26 [(7, 1), (4, 1)]
    (by decide) (by decide) (by decide) (by decide)

/-- C5 (amended): both `modular_exponentiation` implementations compute
`b ^ e mod m` for every modulus m ≥ 2, and also for m ≥ 1 whenever e ≥ 1;
for e = 0 they return 1 for every base and modulus.  (The original claim,
which asserts equality with `b ^ e mod m` for all m ≥ 1, fails at m = 1,
e = 0, where the code returns 1 but `b ^ 0 mod 1 = 0`; see
`C5_modpow_counterexample`.) -/
theorem C5_modpow_amended (b e m : Nat) :
    (2 ≤ m → TestRSA.modular_exponentiation b e m = b ^ e % m ∧
      RSAcore.modular_exponentiation_traced b e m = b ^ e % m) ∧
    (1 ≤ m → 1 ≤ e → TestRSA.modular_exponentiation b e m = b ^ e % m ∧
      RSAcore.modular_exponentiation_traced b e m = b ^ e % m) ∧
    TestRSA.modular_exponentiation b 0 m = 1 ∧
    RSAcore.modular_exponentiation_traced b 0 m = 1 := by
  refine ⟨fun hm => ⟨modular_exponentiation_correct b e m hm, ?_⟩,
    fun hm he => ⟨modular_exponentiation_correct_pos b e m hm he, ?_⟩, rfl, ?_⟩
  · rw [modular_exponentiation_traced_eq]
    exact modular_exponentiation_correct b e m hm
  · rw [modular_exponentiation_traced_eq]
    exact modular_exponentiation_correct_pos b e m hm he
  · rw [modular_exponentiation_traced_eq]
    rfl

/-- C5 witness: 3^5 mod 7 through both implementations, and the e = 0
behaviour at base 0. -/
theorem C5_modpow_witness :
    (TestRSA.modular_exponentiation 3 5 7 = 3 ^ 5 % 7 ∧
      RSAcore.modular_exponentiation_traced 3 5 7 = 3 ^ 5 % 7) ∧
    TestRSA.modular_exponentiation 0 0 7 = 1 ∧
    RSAcore.modular_exponentiation_traced 0 0 7 = 1 :=
  ⟨(C5_modpow_amended 3 5 7).1 (by decide),
    (C5_modpow_amended 0 0 7).2.2⟩

/-- C5 counterexample: at m = 1, e = 0 the code returns 1, but
`b ^ e mod m = 5 ^ 0 mod 1 = 0`, refuting the claim as stated for
"every modulus m ≥ 1". -/
theorem C5_modpow_counterexample :
    TestRSA.modular_exponentiation 5 0 1 = 1 ∧
    RSAcore.modular_exponentiation_traced 5 0 1 = 1 ∧
    (5 : Nat) ^ 0 % 1 = 0 := by
  decide

/-- C6 (amended): for every modulus m ≥ 2: when gcd(a, m) = 1 both
`modular_inverse` (test_rsa.py) and `modinv` (RSA.py, for a ≥ 0) return an
x in [0, m) with (a·x) mod m = 1, and when gcd(a, m) ≠ 1 both raise.
(The original claim quantified over every m; it fails at m = 1, where
gcd(a, 1) = 1 yet the returned x = 0 gives (a·x) mod 1 = 0 ≠ 1; see
`C6_modinv_counterexample`.) -/
theorem C6_modinv_amended (a m : Int) (hm : 2 ≤ m) :
    (Int.gcd a m = 1 →
      (TestRSA.modular_inverse a m).map
        (fun x => decide (0 ≤ x ∧ x < m ∧ a * x % m = 1)) = some true ∧
      (0 ≤ a → (RSAcore.modinv a m).map
        (fun x => decide (0 ≤ x ∧ x < m ∧ a * x % m = 1)) = some true)) ∧
    (Int.gcd a m ≠ 1 →
      TestRSA.modular_inverse a m = none ∧ RSAcore.modinv a m = none) := by
  constructor
  · intro hg
    constructor
    · obtain ⟨h1, h2, h3, h4⟩ := modular_inverse_of_coprime a m hm hg
      rw [h1, Option.map_some']
      exact congrArg some (decide_eq_true ⟨h2, h3, h4⟩)
    · intro ha
      obtain ⟨h1, h2, h3, h4⟩ := modinv_of_coprime a m hm ha hg
      rw [h1, Option.map_some']
      exact congrArg some (decide_eq_true ⟨h2, h3, h4⟩)
  · intro hg
    exact ⟨modular_inverse_of_not_coprime a m hg, modinv_of_not_coprime a m hg⟩

/-- C6 witness: a = 3, m = 26 has an inverse through both implementations;
the claim's own error example a = 2, m = 26 raises in both. -/
theorem C6_modinv_witness :
    ((TestRSA.modular_inverse 3 26).map
      (fun x => decide (0 ≤ x ∧ x < 26 ∧ 3 * x % 26 = 1)) = some true ∧
    (RSAcore.modinv 3 26).map
      (fun x => decide (0 ≤ x ∧ x < 26 ∧ 3 * x % 26 = 1)) = some true) ∧
    (TestRSA.modular_inverse 2 26 = none ∧ RSAcore.modinv 2 26 = none) :=
  ⟨⟨((C6_modinv_amended 3 26 (by decide)).1 (by decide)).1,
    ((C6_modinv_amended 3 26 (by decide)).1 (by decide)).2 (by decide)⟩,
    (C6_modinv_amended 2 26 (by decide)).2 (by decide)⟩

/-- C6 counterexample: at m = 1 we have gcd(3, 1) = 1 and both
implementations return x = 0 without raising, but (3·0) mod 1 = 0 ≠ 1, so
the inverse property of the claim fails at this m. -/
theorem C6_modinv_counterexample :
    Int.gcd 3 1 = 1 ∧ TestRSA.modular_inverse 3 1 = some 0 ∧
    RSAcore.modinv 3 1 = some 0 ∧ ¬((3 : Int) * 0 % 1 = 1) := by
  decide

/-- C7 (amended): for every negative exponent both implementations simply
return 1 — the `while exp > 0` loop body never runs and no error of any
kind is raised.  (The claim that an `InvalidArgument` error is raised is
refuted by `C7_negative_exponent_counterexample`: a value is returned.) -/
theorem C7_negative_exponent_amended (b e m : Int) (he : e < 0) :
    TestRSA.modular_exponentiation_int b e m = 1 ∧
    RSAcore.modular_exponentiation_traced_int b e m = 1 :=
  ⟨modular_exponentiation_int_neg b e m he,
    modular_exponentiation_traced_int_neg b e m he⟩

/-- C7 witness: exponent -1. -/
theorem C7_negative_exponent_witness :
    TestRSA.modular_exponentiation_int 7 (-1) 13 = 1 ∧
    RSAcore.modular_exponentiation_traced_int 7 (-1) 13 = 1 :=
  C7_negative_exponent_amended 7 (-1) 13 (by decide)

/-- C7 counterexample: `mod_pow(2, -3, 5)` returns the value 1 in both
implementations instead of failing with an error. -/
theorem C7_negative_exponent_counterexample :
    TestRSA.modular_exponentiation_int 2 (-3) 5 = 1 ∧
    RSAcore.modular_exponentiation_traced_int 2 (-3) 5 = 1 := by
  decide

/-- C8 (amended): for all integers a, b both `extended_gcd` versions
return (g, x, y) with a·x + b·y = g.  The test_rsa.py version additionally
returns g = gcd(a, b) ≥ 0 for all integers, with base case
(|a|, sign a, 0).  The RSA.py version returns g = gcd(a, b) only for
a ≥ 0 and b ≥ 0: its base case is (a, 1, 0), which preserves the sign of
a (see `C8_extended_gcd_counterexample`). -/
theorem C8_extended_gcd_amended (a b : Int) :
    (a * (TestRSA.extended_gcd a b).2.1 + b * (TestRSA.extended_gcd a b).2.2 =
      (TestRSA.extended_gcd a b).1) ∧
    (TestRSA.extended_gcd a b).1 = (Int.gcd a b : Int) ∧
    (b = 0 → TestRSA.extended_gcd a b =
      ((a.natAbs : Int), if 0 ≤ a then 1 else -1, 0)) ∧
    (a * (RSAcore.extended_gcd a b).2.1 + b * (RSAcore.extended_gcd a b).2.2 =
      (RSAcore.extended_gcd a b).1) ∧
    (0 ≤ a → 0 ≤ b → (RSAcore.extended_gcd a b).1 = (Int.gcd a b : Int)) ∧
    (b = 0 → RSAcore.extended_gcd a b = (a, 1, 0)) := by
  refine ⟨TestRSA_extended_gcd_bezout a b, TestRSA_extended_gcd_eq_gcd a b, ?_,
    RSAcore_extended_gcd_bezout a b, RSAcore_extended_gcd_eq_gcd a b, ?_⟩
  · rintro rfl
    simp [TestRSA.extended_gcd, TestRSA.egcdAbsAux]
  · rintro rfl
    simp [RSAcore.extended_gcd, RSAcore.egcdAux]

/-- C8 witness: a = 6, b = -4, exercising a negative argument on the
test_rsa.py version (Bezout identity and non-negative gcd), and the
claimed base case at a = -5, b = 0. -/
theorem C8_extended_gcd_witness :
    ((6 : Int) * (TestRSA.extended_gcd 6 (-4)).2.1 +
      (-4 : Int) * (TestRSA.extended_gcd 6 (-4)).2.2 =
      (TestRSA.extended_gcd 6 (-4)).1) ∧
    (TestRSA.extended_gcd 6 (-4)).1 = (Int.gcd 6 (-4) : Int) ∧
    TestRSA.extended_gcd (-5) 0 = (((-5 : Int).natAbs : Int), -1, 0) :=
  ⟨(C8_extended_gcd_amended 6 (-4)).1, (C8_extended_gcd_amended 6 (-4)).2.1,
    by
      have h := (C8_extended_gcd_amended (-5) 0).2.2.1 rfl
      rw [h]
      decide⟩

/-- C8 counterexample: RSA.py's `extended_gcd(-5, 0)` returns
(-5, 1, 0): the first component is negative, differing from
gcd(-5, 0) = 5, and the base case is not (|a|, sign a, 0). -/
theorem C8_extended_gcd_counterexample :
    RSAcore.extended_gcd (-5) 0 = (-5, 1, 0) ∧
    (RSAcore.extended_gcd (-5) 0).1 ≠ (Int.gcd (-5) 0 : Int) ∧
    RSAcore.extended_gcd (-5) 0 ≠ (((-5 : Int).natAbs : Int),
      if (0 : Int) ≤ -5 then 1 else -1, 0) := by
  decide

/-- C9: the text codec is total.  `map_text_to_numbers` returns, for every
input, a genuine digit string (decimal digits, even length, aligned groups
at most 25) and silently drops non-alphabetic characters (filtering them
away first gives the same output); `map_numbers_to_text` returns a text
without any exception for every string of decimal digit characters (the
one fallible operation, `int(pair)`, always succeeds on digits). -/
theorem C9_codec_total :
    (∀ text : List Char,
      (∀ d ∈ RSAcore.map_text_to_numbers text, d < 10) ∧
      (RSAcore.map_text_to_numbers text).length % 2 = 0 ∧
      pairsBelow 26 (RSAcore.map_text_to_numbers text) = true ∧
      RSAcore.map_text_to_numbers text =
        RSAcore.map_text_to_numbers (text.filter fun c =>
          decide ((65 ≤ c.toNat ∧ c.toNat ≤ 90) ∨ (97 ≤ c.toNat ∧ c.toNat ≤ 122)))) ∧
    (∀ s : List Char, (∀ c ∈ s, 48 ≤ c.toNat ∧ c.toNat ≤ 57) →
      (RSAcore.map_numbers_to_text_chars s).isSome = true) := by
  constructor
  · intro text
    obtain ⟨h1, h2, h3⟩ := encoded_props RSAcore.letterCode letterCode_shape text
    exact ⟨h1, h2, h3, map_text_to_numbers_filter text⟩
  · intro s hs
    obtain ⟨t, ht⟩ := map_numbers_to_text_chars_total s hs
    rw [ht]
    rfl

/-- C9 witness: the mixed text "a!B" encodes to a digit string and equals
the encoding of its alphabetic filtrate; the digit string "0704" decodes
without an exception. -/
theorem C9_codec_total_witness :
    ((∀ d ∈ RSAcore.map_text_to_numbers ['a', '!', 'B'], d < 10) ∧
      (RSAcore.map_text_to_numbers ['a', '!', 'B']).length % 2 = 0 ∧
      pairsBelow 26 (RSAcore.map_text_to_numbers ['a', '!', 'B']) = true ∧
      RSAcore.map_text_to_numbers ['a', '!', 'B'] =
        RSAcore.map_text_to_numbers (['a', '!', 'B'].filter fun c =>
          decide ((65 ≤ c.toNat ∧ c.toNat ≤ 90) ∨ (97 ≤ c.toNat ∧ c.toNat ≤ 122)))) ∧
    (RSAcore.map_numbers_to_text_chars ['0', '7', '0', '4']).isSome = true :=
  ⟨C9_codec_total.1 ['a', '!', 'B'],
    C9_codec_total.2 ['0', '7', '0', '4'] (by decide)⟩

/-- C10: with zero rounds, `is_probable_prime(n, 0)` returns True for
every odd n ≥ 5 and every randomness oracle — the round loop never runs,
so no base is tested and composites such as 9 are reported
probably-prime. -/
theorem C10_zero_rounds (bases : Nat → Nat) (n : Nat)
    (h5 : 5 ≤ n) (hodd : n % 2 = 1) :
    RSAcore.is_probable_prime bases n 0 = true := by
  unfold RSAcore.is_probable_prime
  rw [if_neg (by omega), if_neg (by omega), if_neg (by omega)]
  simp

/-- C10 witness: the composite 9 is reported probably-prime with zero
rounds, whatever the randomness oracle supplies. -/
theorem C10_zero_rounds_witness :
    RSAcore.is_probable_prime (fun _ => 2) 9 0 = true :=
  C10_zero_rounds (fun _ => 2) 9 (by decide) (by decide)
